import Mathlib

/-!
Verification of the smart-sync command-tree differ
(`examples/smart-sync/utils/tree.py`) and its surrounding sync policy.

The Python snapshot classes (`AppCommandOption`, `AppCommandGroupOption`,
`AppCommandDict`, attrs-frozen with structural equality) are embedded as Lean
structures with derived `DecidableEq`.  Enumerated framework types
(`AppCommandType`, `AppCommandOptionType`, `ChannelType`, `Locale`) are
represented by their underlying values (`Nat` / `String`); numeric bounds
(`int | float | None` in Python) are represented as `Option Int`
(the float case is outside this development's scope).  Python dicts keyed by
`(name, type)` are embedded as association lists built by an
insert-or-replace-in-place operation, which reproduces Python's dict
semantics exactly: the value of a repeated key is replaced while the key
keeps its first-insertion position, and iteration follows insertion order.
-/

set_option autoImplicit false

namespace SmartSync

/-- A locale tag (`discord.Locale` is keyed by its string value). -/
abbrev Locale := String

/-- Localization mappings (`dict[discord.Locale, str]`), in insertion order. -/
abbrev LocalizationMap := List (Locale × String)

/-- The value of an `app_commands.Choice`: `str | int` (floats out of scope). -/
inductive ChoiceValue where
  | str (s : String)
  | num (n : Int)
deriving DecidableEq

/-- An `app_commands.Choice`: a name/value pair. -/
structure Choice where
  name : String
  value : ChoiceValue
deriving DecidableEq

/-- The snapshot of one option: either a plain parameter (Python class
`AppCommandOption`) or a sub-command / group (Python class
`AppCommandGroupOption`), which recursively holds nested options.
Field order follows the source. -/
inductive OptionSnapshot where
  | option (name : String) (description : String) (required : Bool)
      (type : Nat) (autocomplete : Bool)
      (min_value max_value : Option Int) (min_length max_length : Option Int)
      (channel_types : List Nat) (choices : List Choice)
      (name_localizations description_localizations : LocalizationMap)
  | group (name : String) (description : String) (type : Nat)
      (options : List OptionSnapshot)
      (name_localizations description_localizations : LocalizationMap)

mutual

/-- Structural equality on option snapshots is decidable (attrs `__eq__`
compares every field, recursively through nested options). -/
def OptionSnapshot.decEq : (a b : OptionSnapshot) → Decidable (a = b)
  | .option n1 d1 r1 t1 a1 mv1 xv1 ml1 xl1 ct1 ch1 nl1 dl1,
    .option n2 d2 r2 t2 a2 mv2 xv2 ml2 xl2 ct2 ch2 nl2 dl2 =>
      if h : n1 = n2 ∧ d1 = d2 ∧ r1 = r2 ∧ t1 = t2 ∧ a1 = a2 ∧ mv1 = mv2 ∧
          xv1 = xv2 ∧ ml1 = ml2 ∧ xl1 = xl2 ∧ ct1 = ct2 ∧ ch1 = ch2 ∧
          nl1 = nl2 ∧ dl1 = dl2 then
        isTrue (by
          obtain ⟨rfl, rfl, rfl, rfl, rfl, rfl, rfl, rfl, rfl, rfl, rfl, rfl, rfl⟩ := h
          rfl)
      else
        isFalse (fun he => by
          cases he
          exact h ⟨rfl, rfl, rfl, rfl, rfl, rfl, rfl, rfl, rfl, rfl, rfl, rfl, rfl⟩)
  | .option _ _ _ _ _ _ _ _ _ _ _ _ _, .group _ _ _ _ _ _ =>
      isFalse (fun he => OptionSnapshot.noConfusion he)
  | .group _ _ _ _ _ _, .option _ _ _ _ _ _ _ _ _ _ _ _ _ =>
      isFalse (fun he => OptionSnapshot.noConfusion he)
  | .group n1 d1 t1 o1 nl1 dl1, .group n2 d2 t2 o2 nl2 dl2 =>
      match OptionSnapshot.decEqList o1 o2 with
      | isTrue ho =>
          if h : n1 = n2 ∧ d1 = d2 ∧ t1 = t2 ∧ nl1 = nl2 ∧ dl1 = dl2 then
            isTrue (by
              obtain ⟨rfl, rfl, rfl, rfl, rfl⟩ := h
              rw [ho])
          else
            isFalse (fun he => by
              cases he
              exact h ⟨rfl, rfl, rfl, rfl, rfl⟩)
      | isFalse ho => isFalse (fun he => by cases he; exact ho rfl)

/-- Decidable equality on lists of option snapshots. -/
def OptionSnapshot.decEqList : (a b : List OptionSnapshot) → Decidable (a = b)
  | [], [] => isTrue rfl
  | [], _ :: _ => isFalse (fun he => List.noConfusion he)
  | _ :: _, [] => isFalse (fun he => List.noConfusion he)
  | x :: xs, y :: ys =>
      match OptionSnapshot.decEq x y, OptionSnapshot.decEqList xs ys with
      | isTrue h1, isTrue h2 => isTrue (by rw [h1, h2])
      | isFalse h1, _ => isFalse (fun he => by
          injection he with he1 he2
          exact h1 he1)
      | _, isFalse h2 => isFalse (fun he => by
          injection he with he1 he2
          exact h2 he2)

end

instance : DecidableEq OptionSnapshot := OptionSnapshot.decEq

instance : DecidableEq (List OptionSnapshot) := OptionSnapshot.decEqList

/-- The snapshot of one command: Python class `AppCommandDict`
(attrs-frozen, structural equality over every field). -/
structure AppCommandDict where
  type : Nat
  name : String
  description : String
  default_member_permissions : Option Nat
  dm_permission : Bool
  nsfw : Bool
  options : List OptionSnapshot
  description_localizations : LocalizationMap
  name_localizations : LocalizationMap
deriving DecidableEq

/-- The result of `SlashCommandTree._app_commands_diff`: four buckets. -/
structure Diff where
  same : List AppCommandDict
  added : List AppCommandDict
  removed : List AppCommandDict
  updated : List AppCommandDict
deriving DecidableEq

/-- The identity key used for matching: the Python tuple `(cmd.name, cmd.type)`. -/
abbrev CmdKey := String × Nat

/-- `(cmd.name, cmd.type)`. -/
def keyOf (c : AppCommandDict) : CmdKey := (c.name, c.type)

/-- The command dictionaries built by the differ. -/
abbrev CmdMap := List (CmdKey × AppCommandDict)

/-- Python dict assignment `m[k] = v`: replace the value in place if the key
is present (keeping its position), otherwise append at the end. -/
def insertKV : CmdMap → CmdKey → AppCommandDict → CmdMap
  | [], k, v => [(k, v)]
  | (k', v') :: rest, k, v =>
      if k' = k then (k, v) :: rest else (k', v') :: insertKV rest k v

/-- Python dict lookup `m.get(k)`. -/
def lookupKV : CmdMap → CmdKey → Option AppCommandDict
  | [], _ => none
  | (k', v') :: rest, k => if k' = k then some v' else lookupKV rest k

/-- `{(cmd.name, cmd.type): cmd for cmd in cmds}`: a dict comprehension,
inserting left to right. -/
def buildMap (cmds : List AppCommandDict) : CmdMap :=
  cmds.foldl (fun m c => insertKV m (keyOf c) c) []

/-- The body of the first loop of `_app_commands_diff`, classifying one
entry of `new_cmds` against `old_cmds`. -/
def diffStep (oldCmds : CmdMap) (d : Diff) (kc : CmdKey × AppCommandDict) : Diff :=
  match lookupKV oldCmds kc.1 with
  | none => { d with added := d.added ++ [kc.2] }
  | some oldCmd =>
      if oldCmd ≠ kc.2 then { d with updated := d.updated ++ [kc.2] }
      else { d with same := d.same ++ [kc.2] }

/-- The body of the second loop of `_app_commands_diff`: an old key absent
from `new_cmds` is reported as removed. -/
def removedStep (newCmds : CmdMap) (d : Diff) (kc : CmdKey × AppCommandDict) : Diff :=
  if (lookupKV newCmds kc.1).isNone then { d with removed := d.removed ++ [kc.2] }
  else d

/-- `SlashCommandTree._app_commands_diff(old, new)`. -/
def appCommandsDiff (old new : List AppCommandDict) : Diff :=
  let oldCmds := buildMap old
  let newCmds := buildMap new
  let d0 : Diff := { same := [], added := [], removed := [], updated := [] }
  let d1 := newCmds.foldl (diffStep oldCmds) d0
  oldCmds.foldl (removedStep newCmds) d1

/-- The outcome of `SlashCommandTree._sync_commands`: whether the remote
`sync` call was performed, and the returned value (`Diff | None`). -/
structure SyncOutcome where
  called : Bool
  returned : Option Diff
deriving DecidableEq

/-- `SlashCommandTree._sync_commands(diff)`: Python
`any((diff.added, diff.removed, diff.updated))` is true iff some of the three
lists is non-empty; only then is `super().sync()` awaited and the diff
returned, otherwise nothing is synced and `None` is returned. -/
def syncCommands (d : Diff) : SyncOutcome :=
  if !d.added.isEmpty || !d.removed.isEmpty || !d.updated.isEmpty then
    { called := true, returned := some d }
  else
    { called := false, returned := none }

/-- `SlashCommandTree.smart_sync`: copy the stored `_current_commands_list`
as `old`, refresh the stored list via `_revalidate_commands` (embedded as the
`fresh` argument, the snapshot list recomputed from the local command tree),
diff, then run `_sync_commands`.  Returns the post-call stored list and the
sync outcome. -/
def smartSync (current fresh : List AppCommandDict) :
    List AppCommandDict × SyncOutcome :=
  let old := current
  let refreshed := fresh
  let d := appCommandsDiff old refreshed
  (refreshed, syncCommands d)

/-- The attributes of an `app_commands.Parameter` read by
`AppCommandOption.from_parameter` (the local, introspected side).  A
parameter also declares its own `min_length` / `max_length`, which the
converter could have read. -/
structure Parameter where
  name : String
  description : String
  required : Bool
  type : Nat
  autocomplete : Bool
  min_value : Option Int
  max_value : Option Int
  min_length : Option Int
  max_length : Option Int
  channel_types : List Nat
  choices : List Choice
deriving DecidableEq

/-- The attributes of an `app_commands.Argument` read by
`AppCommandOption.from_option` (the remote, fetched side). -/
structure Argument where
  name : String
  description : String
  required : Bool
  type : Nat
  autocomplete : Bool
  min_value : Option Int
  max_value : Option Int
  min_length : Option Int
  max_length : Option Int
  channel_types : List Nat
  choices : List Choice
  name_localizations : LocalizationMap
  description_localizations : LocalizationMap
deriving DecidableEq

/-- Python truthiness of `int | None` (floats out of scope): `None` and `0`
are falsy. -/
def truthyOptInt : Option Int → Bool
  | none => false
  | some v => v ≠ 0

/-- `AppCommandOption.from_parameter(data, param)`: every field is copied
from the parameter except `min_length` / `max_length`, which are computed
as `int(param.min_value) if param.min_value else None` (resp. `max_value`);
the localizations come from the serialized `data` dict. -/
def AppCommandOption.from_parameter (data_name_localizations
    data_description_localizations : LocalizationMap)
    (param : Parameter) : OptionSnapshot :=
  .option param.name param.description param.required param.type
    param.autocomplete param.min_value param.max_value
    (if truthyOptInt param.min_value then param.min_value else none)
    (if truthyOptInt param.max_value then param.max_value else none)
    param.channel_types param.choices
    data_name_localizations data_description_localizations

/-- `AppCommandOption.from_option(opt)` on an `Argument`: every field,
including `min_length` / `max_length`, is copied from the option. -/
def AppCommandOption.from_option (opt : Argument) : OptionSnapshot :=
  .option opt.name opt.description opt.required opt.type opt.autocomplete
    opt.min_value opt.max_value opt.min_length opt.max_length
    opt.channel_types opt.choices
    opt.name_localizations opt.description_localizations

/-- Projection: the `min_length` field of an option snapshot. -/
def OptionSnapshot.minLengthOf : OptionSnapshot → Option Int
  | .option _ _ _ _ _ _ _ ml _ _ _ _ _ => ml
  | .group _ _ _ _ _ _ => none

/-- Projection: the `max_length` field of an option snapshot. -/
def OptionSnapshot.maxLengthOf : OptionSnapshot → Option Int
  | .option _ _ _ _ _ _ _ _ xl _ _ _ _ => xl
  | .group _ _ _ _ _ _ => none

/-- One iteration of the body of `CustomBot.cog_watcher`.  Inputs: for each
stale extension, whether `reload_extension` raised `ExtensionError`
(`true` = failed); and, when a sync happens, the result of
`self.tree.smart_sync()` (an `Except` models a raised exception).  Output:
`Except.ok` when the iteration reaches its `asyncio.sleep` and the loop
proceeds to the next interval, `Except.error` when an uncaught exception
escapes the loop body and aborts the watcher task; paired with the error
log lines.  Each reload failure is caught inside the loop and logged;
`smart_sync` is invoked only when at least one reload succeeded
(`reloaded = True`), and is not wrapped in any `try`.  The per-extension
reload step (the `try`/`except commands.ExtensionError` block): -/
def cogWatcherStep (acc : Bool × List String) (nf : String × Bool) :
    Bool × List String :=
  if nf.2 then (acc.1, acc.2 ++ ["Failed to reload extension " ++ nf.1])
  else (true, acc.2)

/-- The full loop body of `CustomBot.cog_watcher` (see `cogWatcherStep`). -/
def cogWatcherIteration (reloadFailures : List (String × Bool))
    (syncResult : Except String Unit) : Except String Unit × List String :=
  let r := reloadFailures.foldl cogWatcherStep (false, [])
  if r.1 then
    match syncResult with
    | .error e => (.error e, r.2)
    | .ok _ => (.ok (), r.2)
  else (.ok (), r.2)

/-- The last element of `cmds` whose `(name, type)` key is `k` — the value a
Python dict comprehension keeps for a repeated key. -/
def lastWithKey : List AppCommandDict → CmdKey → Option AppCommandDict
  | [], _ => none
  | c :: rest, k =>
      match lastWithKey rest k with
      | some c' => some c'
      | none => if keyOf c = k then some c else none

/-- A `new_cmds` entry lands in `added` iff its key is absent from `old_cmds`. -/
def isAddedKey (o : CmdMap) (kc : CmdKey × AppCommandDict) : Bool :=
  (lookupKV o kc.1).isNone

/-- A `new_cmds` entry lands in `updated` iff its key is present in
`old_cmds` with a structurally different snapshot. -/
def isUpdatedKey (o : CmdMap) (kc : CmdKey × AppCommandDict) : Bool :=
  match lookupKV o kc.1 with
  | some c => decide (c ≠ kc.2)
  | none => false

/-- A `new_cmds` entry lands in `same` iff its key is present in `old_cmds`
with a structurally equal snapshot. -/
def isSameKey (o : CmdMap) (kc : CmdKey × AppCommandDict) : Bool :=
  match lookupKV o kc.1 with
  | some c => decide (c = kc.2)
  | none => false

/-- An `old_cmds` entry lands in `removed` iff its key is absent from
`new_cmds`. -/
def isRemovedKey (n : CmdMap) (kc : CmdKey × AppCommandDict) : Bool :=
  (lookupKV n kc.1).isNone

/-! ### Concrete snapshots for witnesses and counterexamples -/

/-- Example command: a `ping` chat-input command with no options. -/
def cmdPing : AppCommandDict :=
  { type := 1, name := "ping", description := "ping a user",
    default_member_permissions := none, dm_permission := true, nsfw := false,
    options := [], description_localizations := [], name_localizations := [] }

/-- Example option: a `message` string option with the given `required` flag. -/
def msgOption (req : Bool) : OptionSnapshot :=
  .option "message" "the message" req 3 false none none none none [] [] [] []

/-- Example command: an `echo` chat-input command whose single option has
the given `required` flag. -/
def cmdEcho (req : Bool) : AppCommandDict :=
  { type := 1, name := "echo", description := "echo a message",
    default_member_permissions := none, dm_permission := true, nsfw := false,
    options := [msgOption req], description_localizations := [],
    name_localizations := [] }

/-- Example command: same `(name, type)` key as `cmdPing`, different body. -/
def cmdPingAlt : AppCommandDict :=
  { cmdPing with description := "pong" }

/-- Example parameter: a numeric `volume` option declaring
`min_value = 5`, `max_value = 10` and no length bounds. -/
def paramVolume : Parameter :=
  { name := "volume", description := "the volume", required := true,
    type := 4, autocomplete := false, min_value := some 5,
    max_value := some 10, min_length := none, max_length := none,
    channel_types := [], choices := [] }

/-- Example remote argument describing the same `volume` option as
`paramVolume`: identical attributes, in particular no length bounds. -/
def argVolume : Argument :=
  { name := "volume", description := "the volume", required := true,
    type := 4, autocomplete := false, min_value := some 5,
    max_value := some 10, min_length := none, max_length := none,
    channel_types := [], choices := [], name_localizations := [],
    description_localizations := [] }

/-! ### Association-list lemmas (Python dict semantics) -/

theorem lookupKV_insertKV (m : CmdMap) (k : CmdKey) (v : AppCommandDict)
    (q : CmdKey) :
    lookupKV (insertKV m k v) q = if k = q then some v else lookupKV m q := by
  induction m with
  | nil => simp [insertKV, lookupKV]
  | cons hd tl ih =>
      obtain ⟨k', v'⟩ := hd
      by_cases h : k' = k
      · subst h
        by_cases hq : k' = q <;> simp [insertKV, lookupKV, hq]
      · by_cases hq : k' = q
        · subst hq
          have hkq : ¬k = k' := fun he => h he.symm
          simp [insertKV, lookupKV, h, hkq]
        · simp [insertKV, lookupKV, h, hq, ih]

theorem mem_insertKV {m : CmdMap} {k : CmdKey} {v : AppCommandDict}
    {kc : CmdKey × AppCommandDict} (h : kc ∈ insertKV m k v) :
    kc = (k, v) ∨ kc ∈ m := by
  induction m with
  | nil => simpa [insertKV] using h
  | cons hd tl ih =>
      obtain ⟨k', v'⟩ := hd
      simp only [insertKV] at h
      by_cases hk : k' = k
      · rw [if_pos hk] at h
        rcases List.mem_cons.mp h with h1 | h1
        · exact Or.inl h1
        · exact Or.inr (List.mem_cons_of_mem _ h1)
      · rw [if_neg hk] at h
        rcases List.mem_cons.mp h with h1 | h1
        · exact Or.inr (h1 ▸ List.mem_cons_self _ _)
        · rcases ih h1 with h2 | h2
          · exact Or.inl h2
          · exact Or.inr (List.mem_cons_of_mem _ h2)

theorem mem_keys_insertKV (m : CmdMap) (k : CmdKey) (v : AppCommandDict)
    (q : CmdKey) :
    q ∈ (insertKV m k v).map Prod.fst ↔ q = k ∨ q ∈ m.map Prod.fst := by
  induction m with
  | nil => simp [insertKV]
  | cons hd tl ih =>
      obtain ⟨k', v'⟩ := hd
      by_cases hk : k' = k
      · subst hk
        simp [insertKV]
      · simp only [insertKV, if_neg hk, List.map_cons, List.mem_cons, ih]
        tauto

theorem nodup_keys_insertKV {m : CmdMap} (k : CmdKey) (v : AppCommandDict)
    (h : (m.map Prod.fst).Nodup) :
    ((insertKV m k v).map Prod.fst).Nodup := by
  induction m with
  | nil => simp [insertKV]
  | cons hd tl ih =>
      obtain ⟨k', v'⟩ := hd
      simp only [List.map_cons, List.nodup_cons] at h
      by_cases hk : k' = k
      · simp only [insertKV]
        rw [if_pos hk]
        subst hk
        simp only [List.map_cons, List.nodup_cons]
        exact ⟨h.1, h.2⟩
      · simp only [insertKV, if_neg hk, List.map_cons, List.nodup_cons]
        refine ⟨fun hmem => ?_, ih h.2⟩
        rcases (mem_keys_insertKV tl k v k').mp hmem with h1 | h1
        · exact hk h1
        · exact h.1 h1

theorem lookupKV_eq_some_of_mem_nodup {m : CmdMap} {k : CmdKey}
    {v : AppCommandDict} (hn : (m.map Prod.fst).Nodup) (hm : (k, v) ∈ m) :
    lookupKV m k = some v := by
  induction m with
  | nil => cases hm
  | cons hd tl ih =>
      obtain ⟨k', v'⟩ := hd
      simp only [List.map_cons, List.nodup_cons] at hn
      rcases List.mem_cons.mp hm with h1 | h1
      · cases h1
        simp [lookupKV]
      · have hne : k' ≠ k := by
          intro he
          subst he
          exact hn.1 (List.mem_map.mpr ⟨(k', v), h1, rfl⟩)
        simp only [lookupKV, if_neg hne]
        exact ih hn.2 h1

theorem mem_of_lookupKV_eq_some {m : CmdMap} {k : CmdKey}
    {v : AppCommandDict} (h : lookupKV m k = some v) : (k, v) ∈ m := by
  induction m with
  | nil => cases h
  | cons hd tl ih =>
      obtain ⟨k', v'⟩ := hd
      simp only [lookupKV] at h
      by_cases hk : k' = k
      · subst hk
        rw [if_pos rfl] at h
        injection h with hv
        subst hv
        exact List.mem_cons_self _ _
      · rw [if_neg hk] at h
        exact List.mem_cons_of_mem _ (ih h)

theorem lookupKV_isSome_iff (m : CmdMap) (k : CmdKey) :
    (lookupKV m k).isSome ↔ k ∈ m.map Prod.fst := by
  induction m with
  | nil => simp [lookupKV]
  | cons hd tl ih =>
      obtain ⟨k', v'⟩ := hd
      simp only [lookupKV, List.map_cons, List.mem_cons]
      by_cases hk : k' = k
      · subst hk; simp
      · rw [if_neg hk]
        simp only [ih]
        constructor
        · exact Or.inr
        · rintro (h | h)
          · exact absurd h.symm hk
          · exact h

/-! ### buildMap lemmas -/

theorem lookupKV_foldl_insert (cmds : List AppCommandDict) (m : CmdMap)
    (k : CmdKey) :
    lookupKV (cmds.foldl (fun m c => insertKV m (keyOf c) c) m) k =
      match lastWithKey cmds k with
      | some c => some c
      | none => lookupKV m k := by
  induction cmds generalizing m with
  | nil => simp [lastWithKey]
  | cons c rest ih =>
      simp only [List.foldl_cons, ih, lastWithKey]
      cases h : lastWithKey rest k with
      | some c' => simp
      | none =>
          simp only [lookupKV_insertKV]
          by_cases hk : keyOf c = k <;> simp [hk]

theorem lookupKV_buildMap (cmds : List AppCommandDict) (k : CmdKey) :
    lookupKV (buildMap cmds) k = lastWithKey cmds k := by
  rw [buildMap, lookupKV_foldl_insert]
  cases h : lastWithKey cmds k <;> simp [lookupKV]

theorem lastWithKey_isSome_iff (cmds : List AppCommandDict) (k : CmdKey) :
    (lastWithKey cmds k).isSome ↔ ∃ c ∈ cmds, keyOf c = k := by
  induction cmds with
  | nil => simp [lastWithKey]
  | cons c rest ih =>
      simp only [lastWithKey]
      cases h : lastWithKey rest k with
      | some c' =>
          have : ∃ x ∈ rest, keyOf x = k := by
            rw [← ih, h]; simp
          simp only [Option.isSome_some, true_iff]
          obtain ⟨x, hx, hk⟩ := this
          exact ⟨x, List.mem_cons_of_mem _ hx, hk⟩
      | none =>
          rw [h] at ih
          simp only [Option.isSome_none, Bool.false_eq_true, false_iff] at ih
          by_cases hk : keyOf c = k
          · simp only [if_pos hk, Option.isSome_some, true_iff]
            exact ⟨c, List.mem_cons_self _ _, hk⟩
          · simp only [if_neg hk, Option.isSome_none, Bool.false_eq_true,
              false_iff]
            rintro ⟨x, hx, hxk⟩
            rcases List.mem_cons.mp hx with h1 | h1
            · exact hk (h1 ▸ hxk)
            · exact ih ⟨x, h1, hxk⟩

theorem lastWithKey_mem {cmds : List AppCommandDict} {k : CmdKey}
    {c : AppCommandDict} (h : lastWithKey cmds k = some c) :
    c ∈ cmds ∧ keyOf c = k := by
  induction cmds with
  | nil => cases h
  | cons a rest ih =>
      simp only [lastWithKey] at h
      cases h' : lastWithKey rest k with
      | some c' =>
          rw [h'] at h
          injection h with hc
          subst hc
          obtain ⟨h1, h2⟩ := ih h'
          exact ⟨List.mem_cons_of_mem _ h1, h2⟩
      | none =>
          rw [h'] at h
          by_cases hk : keyOf a = k
          · rw [if_pos hk] at h
            injection h with hc
            subst hc
            exact ⟨List.mem_cons_self _ _, hk⟩
          · rw [if_neg hk] at h
            cases h

theorem lastWithKey_of_nodup {cmds : List AppCommandDict}
    {c : AppCommandDict} (hn : (cmds.map keyOf).Nodup) (hc : c ∈ cmds) :
    lastWithKey cmds (keyOf c) = some c := by
  induction cmds with
  | nil => cases hc
  | cons a rest ih =>
      simp only [List.map_cons, List.nodup_cons] at hn
      rcases List.mem_cons.mp hc with h1 | h1
      · subst h1
        have hnone : lastWithKey rest (keyOf c) = none := by
          cases h : lastWithKey rest (keyOf c) with
          | none => rfl
          | some x =>
              obtain ⟨hx, hxk⟩ := lastWithKey_mem h
              exact absurd (List.mem_map.mpr ⟨x, hx, hxk⟩) hn.1
        simp [lastWithKey, hnone]
      · simp only [lastWithKey, ih hn.2 h1]

theorem mem_foldl_insert {cmds : List AppCommandDict} {m : CmdMap}
    {kc : CmdKey × AppCommandDict}
    (h : kc ∈ cmds.foldl (fun m c => insertKV m (keyOf c) c) m) :
    kc ∈ m ∨ (kc.1 = keyOf kc.2 ∧ kc.2 ∈ cmds) := by
  induction cmds generalizing m with
  | nil => exact Or.inl h
  | cons c rest ih =>
      simp only [List.foldl_cons] at h
      rcases ih h with h1 | h1
      · rcases mem_insertKV h1 with h2 | h2
        · subst h2
          exact Or.inr ⟨rfl, List.mem_cons_self _ _⟩
        · exact Or.inl h2
      · exact Or.inr ⟨h1.1, List.mem_cons_of_mem _ h1.2⟩

theorem mem_buildMap {cmds : List AppCommandDict}
    {kc : CmdKey × AppCommandDict} (h : kc ∈ buildMap cmds) :
    kc.1 = keyOf kc.2 ∧ kc.2 ∈ cmds := by
  rcases mem_foldl_insert h with h1 | h1
  · cases h1
  · exact h1

theorem nodup_keys_buildMap (cmds : List AppCommandDict) :
    ((buildMap cmds).map Prod.fst).Nodup := by
  have main : ∀ (l : List AppCommandDict) (m : CmdMap),
      (m.map Prod.fst).Nodup →
      ((l.foldl (fun m c => insertKV m (keyOf c) c) m).map Prod.fst).Nodup := by
    intro l
    induction l with
    | nil => intro m hm; exact hm
    | cons c rest ih =>
        intro m hm
        simp only [List.foldl_cons]
        exact ih _ (nodup_keys_insertKV _ _ hm)
  exact main cmds [] (by simp)

theorem mem_keys_buildMap (cmds : List AppCommandDict) (k : CmdKey) :
    k ∈ (buildMap cmds).map Prod.fst ↔ k ∈ cmds.map keyOf := by
  rw [← lookupKV_isSome_iff, lookupKV_buildMap, lastWithKey_isSome_iff]
  simp only [List.mem_map]

theorem lookupKV_buildMap_self {cmds : List AppCommandDict}
    {kc : CmdKey × AppCommandDict} (h : kc ∈ buildMap cmds) :
    lookupKV (buildMap cmds) kc.1 = some kc.2 :=
  lookupKV_eq_some_of_mem_nodup (nodup_keys_buildMap cmds) h

theorem insertKV_of_not_mem {m : CmdMap} {k : CmdKey} (v : AppCommandDict)
    (h : k ∉ m.map Prod.fst) : insertKV m k v = m ++ [(k, v)] := by
  induction m with
  | nil => simp [insertKV]
  | cons hd tl ih =>
      obtain ⟨k', v'⟩ := hd
      simp only [List.map_cons, List.mem_cons] at h
      push_neg at h
      have hne : ¬k' = k := fun he => h.1 he.symm
      simp only [insertKV, if_neg hne, List.cons_append, List.cons.injEq,
        true_and]
      exact ih h.2

theorem buildMap_of_nodup {cmds : List AppCommandDict}
    (hn : (cmds.map keyOf).Nodup) :
    buildMap cmds = cmds.map (fun c => (keyOf c, c)) := by
  have main : ∀ (l : List AppCommandDict) (m : CmdMap),
      (l.map keyOf).Nodup →
      (∀ c ∈ l, keyOf c ∉ m.map Prod.fst) →
      l.foldl (fun m c => insertKV m (keyOf c) c) m =
        m ++ l.map (fun c => (keyOf c, c)) := by
    intro l
    induction l with
    | nil => intro m _ _; simp
    | cons c rest ih =>
        intro m hnd hdis
        simp only [List.map_cons, List.nodup_cons] at hnd
        simp only [List.foldl_cons]
        rw [insertKV_of_not_mem c (hdis c (List.mem_cons_self _ _))]
        rw [ih (m ++ [(keyOf c, c)]) hnd.2 ?_]
        · simp
        · intro x hx
          simp only [List.map_append, List.mem_append, List.map_cons,
            List.map_nil, List.mem_singleton]
          push_neg
          refine ⟨hdis x (List.mem_cons_of_mem _ hx), fun he => ?_⟩
          exact hnd.1 (he ▸ List.mem_map.mpr ⟨x, hx, rfl⟩)
  have := main cmds [] hn (by simp)
  simpa [buildMap] using this

/-! ### Bucket characterization of the differ -/

theorem foldl_diffStep_added (o : CmdMap) (l : List (CmdKey × AppCommandDict))
    (d : Diff) :
    (l.foldl (diffStep o) d).added =
      d.added ++ (l.filter (isAddedKey o)).map Prod.snd := by
  induction l generalizing d with
  | nil => simp
  | cons kc rest ih =>
      simp only [List.foldl_cons, ih, diffStep, isAddedKey]
      cases h : lookupKV o kc.1 with
      | none => simp [List.filter_cons, isAddedKey, h]
      | some c =>
          by_cases hc : c = kc.2
          · simp [List.filter_cons, isAddedKey, h, hc]
          · simp [List.filter_cons, isAddedKey, h, hc]

theorem foldl_diffStep_updated (o : CmdMap)
    (l : List (CmdKey × AppCommandDict)) (d : Diff) :
    (l.foldl (diffStep o) d).updated =
      d.updated ++ (l.filter (isUpdatedKey o)).map Prod.snd := by
  induction l generalizing d with
  | nil => simp
  | cons kc rest ih =>
      simp only [List.foldl_cons, ih, diffStep, isUpdatedKey]
      cases h : lookupKV o kc.1 with
      | none => simp [List.filter_cons, isUpdatedKey, h]
      | some c =>
          by_cases hc : c = kc.2
          · simp [List.filter_cons, isUpdatedKey, h, hc]
          · simp [List.filter_cons, isUpdatedKey, h, hc]

theorem foldl_diffStep_same (o : CmdMap) (l : List (CmdKey × AppCommandDict))
    (d : Diff) :
    (l.foldl (diffStep o) d).same =
      d.same ++ (l.filter (isSameKey o)).map Prod.snd := by
  induction l generalizing d with
  | nil => simp
  | cons kc rest ih =>
      simp only [List.foldl_cons, ih, diffStep, isSameKey]
      cases h : lookupKV o kc.1 with
      | none => simp [List.filter_cons, isSameKey, h]
      | some c =>
          by_cases hc : c = kc.2
          · simp [List.filter_cons, isSameKey, h, hc]
          · simp [List.filter_cons, isSameKey, h, hc]

theorem foldl_diffStep_removed (o : CmdMap)
    (l : List (CmdKey × AppCommandDict)) (d : Diff) :
    (l.foldl (diffStep o) d).removed = d.removed := by
  induction l generalizing d with
  | nil => rfl
  | cons kc rest ih =>
      simp only [List.foldl_cons, ih, diffStep]
      cases h : lookupKV o kc.1 with
      | none => rfl
      | some c =>
          by_cases hc : c = kc.2
          · simp [hc]
          · simp [hc]

theorem foldl_removedStep_removed (n : CmdMap)
    (l : List (CmdKey × AppCommandDict)) (d : Diff) :
    (l.foldl (removedStep n) d).removed =
      d.removed ++ (l.filter (isRemovedKey n)).map Prod.snd := by
  induction l generalizing d with
  | nil => simp
  | cons kc rest ih =>
      simp only [List.foldl_cons, ih, removedStep, isRemovedKey]
      cases h : lookupKV n kc.1 with
      | none => simp [List.filter_cons, isRemovedKey, h]
      | some c => simp [List.filter_cons, isRemovedKey, h]

theorem foldl_removedStep_added (n : CmdMap)
    (l : List (CmdKey × AppCommandDict)) (d : Diff) :
    (l.foldl (removedStep n) d).added = d.added := by
  induction l generalizing d with
  | nil => rfl
  | cons kc rest ih =>
      simp only [List.foldl_cons, ih, removedStep]
      cases h : lookupKV n kc.1 with
      | none => simp
      | some c => simp

theorem foldl_removedStep_updated (n : CmdMap)
    (l : List (CmdKey × AppCommandDict)) (d : Diff) :
    (l.foldl (removedStep n) d).updated = d.updated := by
  induction l generalizing d with
  | nil => rfl
  | cons kc rest ih =>
      simp only [List.foldl_cons, ih, removedStep]
      cases h : lookupKV n kc.1 with
      | none => simp
      | some c => simp

theorem foldl_removedStep_same (n : CmdMap)
    (l : List (CmdKey × AppCommandDict)) (d : Diff) :
    (l.foldl (removedStep n) d).same = d.same := by
  induction l generalizing d with
  | nil => rfl
  | cons kc rest ih =>
      simp only [List.foldl_cons, ih, removedStep]
      cases h : lookupKV n kc.1 with
      | none => simp
      | some c => simp

/-- The `added` bucket of the differ: exactly the `new_cmds` entries whose
key is absent from `old_cmds`, in dict iteration order. -/
theorem appCommandsDiff_added (old new : List AppCommandDict) :
    (appCommandsDiff old new).added =
      ((buildMap new).filter (isAddedKey (buildMap old))).map Prod.snd := by
  simp only [appCommandsDiff, foldl_removedStep_added, foldl_diffStep_added,
    List.nil_append]

/-- The `updated` bucket: exactly the `new_cmds` entries whose key is held
in `old_cmds` with a structurally different snapshot (the new one is kept). -/
theorem appCommandsDiff_updated (old new : List AppCommandDict) :
    (appCommandsDiff old new).updated =
      ((buildMap new).filter (isUpdatedKey (buildMap old))).map Prod.snd := by
  simp only [appCommandsDiff, foldl_removedStep_updated,
    foldl_diffStep_updated, List.nil_append]

/-- The `same` bucket: exactly the `new_cmds` entries whose key is held in
`old_cmds` with a structurally equal snapshot. -/
theorem appCommandsDiff_same (old new : List AppCommandDict) :
    (appCommandsDiff old new).same =
      ((buildMap new).filter (isSameKey (buildMap old))).map Prod.snd := by
  simp only [appCommandsDiff, foldl_removedStep_same, foldl_diffStep_same,
    List.nil_append]

/-- The `removed` bucket: exactly the `old_cmds` entries whose key is absent
from `new_cmds` (the old snapshot is kept). -/
theorem appCommandsDiff_removed (old new : List AppCommandDict) :
    (appCommandsDiff old new).removed =
      ((buildMap old).filter (isRemovedKey (buildMap new))).map Prod.snd := by
  simp only [appCommandsDiff, foldl_removedStep_removed,
    foldl_diffStep_removed, List.nil_append]

/-! ### Claim theorems -/

/-- C1: the differ builds a `(name, type)`-keyed mapping for each input and
classifies every key into exactly one bucket: a key of `new` absent from
`old` puts the new snapshot into `added`; a key present in both with
structurally unequal snapshots puts the new snapshot into `updated`; a key
present in both with equal snapshots puts it into `same`; a key of `old`
absent from `new` puts the old snapshot into `removed`.  Exactly one of the
three classifying conditions holds for every key of `new`. -/
theorem diff_classifies_every_key (old new : List AppCommandDict) :
    (appCommandsDiff old new).added =
      ((buildMap new).filter (isAddedKey (buildMap old))).map Prod.snd ∧
    (appCommandsDiff old new).updated =
      ((buildMap new).filter (isUpdatedKey (buildMap old))).map Prod.snd ∧
    (appCommandsDiff old new).same =
      ((buildMap new).filter (isSameKey (buildMap old))).map Prod.snd ∧
    (appCommandsDiff old new).removed =
      ((buildMap old).filter (isRemovedKey (buildMap new))).map Prod.snd ∧
    ∀ kc : CmdKey × AppCommandDict,
      (isAddedKey (buildMap old) kc = true ∧
        isUpdatedKey (buildMap old) kc = false ∧
        isSameKey (buildMap old) kc = false) ∨
      (isAddedKey (buildMap old) kc = false ∧
        isUpdatedKey (buildMap old) kc = true ∧
        isSameKey (buildMap old) kc = false) ∨
      (isAddedKey (buildMap old) kc = false ∧
        isUpdatedKey (buildMap old) kc = false ∧
        isSameKey (buildMap old) kc = true) := by
  refine ⟨appCommandsDiff_added old new, appCommandsDiff_updated old new,
    appCommandsDiff_same old new, appCommandsDiff_removed old new, ?_⟩
  intro kc
  cases h : lookupKV (buildMap old) kc.1 with
  | none => exact Or.inl (by simp [isAddedKey, isUpdatedKey, isSameKey, h])
  | some c =>
      by_cases hc : c = kc.2
      · exact Or.inr (Or.inr
          (by simp [isAddedKey, isUpdatedKey, isSameKey, h, hc]))
      · exact Or.inr (Or.inl
          (by simp [isAddedKey, isUpdatedKey, isSameKey, h, hc]))

/-- `_sync_commands` performs the remote call exactly when some of the
three change buckets is non-empty. -/
theorem syncCommands_called_iff (d : Diff) :
    (syncCommands d).called = true ↔
      (d.added ≠ [] ∨ d.removed ≠ [] ∨ d.updated ≠ []) := by
  rw [syncCommands]
  by_cases ha : d.added = [] <;> by_cases hr : d.removed = [] <;>
    by_cases hu : d.updated = [] <;>
    simp [ha, hr, hu, List.isEmpty_iff]

/-- C2: the synchronization decision is "needed" iff at least one of
`added`, `removed`, `updated` is non-empty; when all three are empty, the
remote `sync` call is skipped and `None` is returned. -/
theorem syncCommands_needed_iff (d : Diff) :
    ((syncCommands d).called = true ↔
      (d.added ≠ [] ∨ d.removed ≠ [] ∨ d.updated ≠ [])) ∧
    ((d.added = [] ∧ d.removed = [] ∧ d.updated = []) →
      (syncCommands d).called = false ∧ (syncCommands d).returned = none) := by
  refine ⟨syncCommands_called_iff d, ?_⟩
  rintro ⟨ha, hr, hu⟩
  rw [syncCommands]
  simp [ha, hr, hu]

/-- C2 witness: on the empty diff no sync happens, on a diff with one added
command the decision is "needed". -/
theorem syncCommands_needed_iff_witness :
    ((Diff.mk [] [] [] []).added = [] ∧ (Diff.mk [] [] [] []).removed = [] ∧
      (Diff.mk [] [] [] []).updated = []) ∧
    (syncCommands (Diff.mk [] [] [] [])).called = false ∧
    (syncCommands (Diff.mk [] [] [] [])).returned = none :=
  ⟨⟨rfl, rfl, rfl⟩,
    (syncCommands_needed_iff (Diff.mk [] [] [] [])).2 ⟨rfl, rfl, rfl⟩⟩

/-- C3: snapshot equality is structural over every attribute (decidable
equality of the embedded records, recursively through nested options); if a
key appears in both inputs with structurally different snapshots, the new
snapshot lands in `updated` and never in `same`. -/
theorem structural_difference_updated (old new : List AppCommandDict)
    (k : CmdKey) (cOld cNew : AppCommandDict)
    (hOld : lookupKV (buildMap old) k = some cOld)
    (hNew : lookupKV (buildMap new) k = some cNew)
    (hne : cOld ≠ cNew) :
    cNew ∈ (appCommandsDiff old new).updated ∧
    cNew ∉ (appCommandsDiff old new).same := by
  have hmemNew : (k, cNew) ∈ buildMap new := mem_of_lookupKV_eq_some hNew
  have hkey : k = keyOf cNew := (mem_buildMap hmemNew).1
  constructor
  · rw [appCommandsDiff_updated]
    refine List.mem_map.mpr ⟨(k, cNew), List.mem_filter.mpr ⟨hmemNew, ?_⟩, rfl⟩
    simp [isUpdatedKey, hOld, hne]
  · rw [appCommandsDiff_same]
    intro hmem
    obtain ⟨⟨k', c'⟩, hf, hsnd⟩ := List.mem_map.mp hmem
    have hc' : c' = cNew := hsnd
    subst hc'
    have hfm := List.mem_filter.mp hf
    have hk' : k' = keyOf c' := (mem_buildMap hfm.1).1
    have hkk : k' = k := by rw [hk', hkey]
    rw [hkk] at hfm
    have := hfm.2
    rw [isSameKey, hOld] at this
    simp only [decide_eq_true_eq] at this
    exact hne this

/-- C3 witness: flipping one option's `required` flag from `false` to
`true` puts `echo` into `updated`, not `same`. -/
theorem structural_difference_updated_witness :
    lookupKV (buildMap [cmdEcho false]) ("echo", 1) = some (cmdEcho false) ∧
    lookupKV (buildMap [cmdEcho true]) ("echo", 1) = some (cmdEcho true) ∧
    cmdEcho false ≠ cmdEcho true ∧
    cmdEcho true ∈ (appCommandsDiff [cmdEcho false] [cmdEcho true]).updated ∧
    cmdEcho true ∉ (appCommandsDiff [cmdEcho false] [cmdEcho true]).same :=
  ⟨by decide, by decide, by decide,
    structural_difference_updated [cmdEcho false] [cmdEcho true] ("echo", 1)
      (cmdEcho false) (cmdEcho true) (by decide) (by decide) (by decide)⟩

/-- C4: on inputs with unique keys that are equal as sets, the diff has
empty `added`, `removed`, `updated`, `same` holds exactly the common
elements, and synchronization is not needed. -/
theorem diff_set_equal (old new : List AppCommandDict)
    (hOld : (old.map keyOf).Nodup) (hNew : (new.map keyOf).Nodup)
    (hset : ∀ c, c ∈ old ↔ c ∈ new) :
    (appCommandsDiff old new).added = [] ∧
    (appCommandsDiff old new).removed = [] ∧
    (appCommandsDiff old new).updated = [] ∧
    (∀ c, c ∈ (appCommandsDiff old new).same ↔ c ∈ new) ∧
    (syncCommands (appCommandsDiff old new)).called = false := by
  have lookOld : ∀ c ∈ old, lookupKV (buildMap old) (keyOf c) = some c := by
    intro c hc
    rw [lookupKV_buildMap]
    exact lastWithKey_of_nodup hOld hc
  have lookNew : ∀ c ∈ new, lookupKV (buildMap new) (keyOf c) = some c := by
    intro c hc
    rw [lookupKV_buildMap]
    exact lastWithKey_of_nodup hNew hc
  have hadded : (appCommandsDiff old new).added = [] := by
    rw [appCommandsDiff_added]
    have : (buildMap new).filter (isAddedKey (buildMap old)) = [] := by
      rw [List.filter_eq_nil_iff]
      intro kc hkc
      obtain ⟨hk, hmem⟩ := mem_buildMap hkc
      have : lookupKV (buildMap old) kc.1 = some kc.2 := by
        rw [hk]
        exact lookOld kc.2 ((hset kc.2).mpr hmem)
      simp [isAddedKey, this]
    rw [this]
    rfl
  have hupdated : (appCommandsDiff old new).updated = [] := by
    rw [appCommandsDiff_updated]
    have : (buildMap new).filter (isUpdatedKey (buildMap old)) = [] := by
      rw [List.filter_eq_nil_iff]
      intro kc hkc
      obtain ⟨hk, hmem⟩ := mem_buildMap hkc
      have : lookupKV (buildMap old) kc.1 = some kc.2 := by
        rw [hk]
        exact lookOld kc.2 ((hset kc.2).mpr hmem)
      simp [isUpdatedKey, this]
    rw [this]
    rfl
  have hremoved : (appCommandsDiff old new).removed = [] := by
    rw [appCommandsDiff_removed]
    have : (buildMap old).filter (isRemovedKey (buildMap new)) = [] := by
      rw [List.filter_eq_nil_iff]
      intro kc hkc
      obtain ⟨hk, hmem⟩ := mem_buildMap hkc
      have : lookupKV (buildMap new) kc.1 = some kc.2 := by
        rw [hk]
        exact lookNew kc.2 ((hset kc.2).mp hmem)
      simp [isRemovedKey, this]
    rw [this]
    rfl
  refine ⟨hadded, hremoved, hupdated, ?_, ?_⟩
  · intro c
    rw [appCommandsDiff_same]
    constructor
    · intro hmem
      obtain ⟨kc, hf, hsnd⟩ := List.mem_map.mp hmem
      have := (mem_buildMap (List.mem_filter.mp hf).1).2
      rw [hsnd] at this
      exact this
    · intro hc
      refine List.mem_map.mpr ⟨(keyOf c, c), List.mem_filter.mpr ⟨?_, ?_⟩, rfl⟩
      · rw [buildMap_of_nodup hNew]
        exact List.mem_map.mpr ⟨c, hc, rfl⟩
      · have : lookupKV (buildMap old) (keyOf c) = some c :=
          lookOld c ((hset c).mpr hc)
        simp [isSameKey, this]
  · rw [syncCommands]
    simp [hadded, hremoved, hupdated]

/-- C4 witness: two two-command sets equal up to order diff to empty
`added` / `removed` / `updated`, `same` holds both commands, and no sync is
performed. -/
theorem diff_set_equal_witness :
    (([cmdEcho true, cmdPing].map keyOf).Nodup ∧
      ([cmdPing, cmdEcho true].map keyOf).Nodup) ∧
    (appCommandsDiff [cmdEcho true, cmdPing] [cmdPing, cmdEcho true]).added
        = [] ∧
    (appCommandsDiff [cmdEcho true, cmdPing] [cmdPing, cmdEcho true]).removed
        = [] ∧
    (appCommandsDiff [cmdEcho true, cmdPing] [cmdPing, cmdEcho true]).updated
        = [] ∧
    (∀ c, c ∈ (appCommandsDiff [cmdEcho true, cmdPing]
        [cmdPing, cmdEcho true]).same ↔ c ∈ [cmdPing, cmdEcho true]) ∧
    (syncCommands (appCommandsDiff [cmdEcho true, cmdPing]
        [cmdPing, cmdEcho true])).called = false :=
  ⟨⟨by decide, by decide⟩,
    diff_set_equal [cmdEcho true, cmdPing] [cmdPing, cmdEcho true]
      (by decide) (by decide)
      (fun c => by
        simp only [List.mem_cons, List.not_mem_nil, or_false]
        tauto)⟩

/-- C5: with unique keys, diffing from an empty `old` yields
`added = new` and nothing else; diffing to an empty `new` yields
`removed = old` and nothing else. -/
theorem diff_empty_boundaries (old new : List AppCommandDict)
    (hOld : (old.map keyOf).Nodup) (hNew : (new.map keyOf).Nodup) :
    (old = [] → new ≠ [] →
      (appCommandsDiff old new).added = new ∧
      (appCommandsDiff old new).removed = [] ∧
      (appCommandsDiff old new).updated = [] ∧
      (appCommandsDiff old new).same = []) ∧
    (new = [] → old ≠ [] →
      (appCommandsDiff old new).removed = old ∧
      (appCommandsDiff old new).added = [] ∧
      (appCommandsDiff old new).updated = [] ∧
      (appCommandsDiff old new).same = []) := by
  constructor
  · rintro rfl -
    have hnone : ∀ k, lookupKV (buildMap []) k = none := fun _ => rfl
    refine ⟨?_, ?_, ?_, ?_⟩
    · rw [appCommandsDiff_added]
      have hfil : (buildMap new).filter (isAddedKey (buildMap [])) =
          buildMap new := by
        rw [List.filter_eq_self]
        intro kc _
        simp [isAddedKey, hnone]
      rw [hfil, buildMap_of_nodup hNew, List.map_map]
      exact List.map_id new
    · rw [appCommandsDiff_removed]
      rfl
    · rw [appCommandsDiff_updated]
      have hfil : (buildMap new).filter (isUpdatedKey (buildMap [])) = [] := by
        rw [List.filter_eq_nil_iff]
        intro kc _
        simp [isUpdatedKey, hnone]
      rw [hfil]
      rfl
    · rw [appCommandsDiff_same]
      have hfil : (buildMap new).filter (isSameKey (buildMap [])) = [] := by
        rw [List.filter_eq_nil_iff]
        intro kc _
        simp [isSameKey, hnone]
      rw [hfil]
      rfl
  · rintro rfl -
    have hnone : ∀ k, lookupKV (buildMap []) k = none := fun _ => rfl
    refine ⟨?_, ?_, ?_, ?_⟩
    · rw [appCommandsDiff_removed]
      have hfil : (buildMap old).filter (isRemovedKey (buildMap [])) =
          buildMap old := by
        rw [List.filter_eq_self]
        intro kc _
        simp [isRemovedKey, hnone]
      rw [hfil, buildMap_of_nodup hOld, List.map_map]
      exact List.map_id old
    · rw [appCommandsDiff_added]
      rfl
    · rw [appCommandsDiff_updated]
      rfl
    · rw [appCommandsDiff_same]
      rfl

/-- C5 witness: both boundary cases at concrete inputs. -/
theorem diff_empty_boundaries_witness :
    ((appCommandsDiff [] [cmdPing, cmdEcho true]).added =
        [cmdPing, cmdEcho true] ∧
      (appCommandsDiff [] [cmdPing, cmdEcho true]).removed = [] ∧
      (appCommandsDiff [] [cmdPing, cmdEcho true]).updated = [] ∧
      (appCommandsDiff [] [cmdPing, cmdEcho true]).same = []) ∧
    ((appCommandsDiff [cmdPing, cmdEcho true] []).removed =
        [cmdPing, cmdEcho true] ∧
      (appCommandsDiff [cmdPing, cmdEcho true] []).added = [] ∧
      (appCommandsDiff [cmdPing, cmdEcho true] []).updated = [] ∧
      (appCommandsDiff [cmdPing, cmdEcho true] []).same = []) :=
  ⟨(diff_empty_boundaries [] [cmdPing, cmdEcho true] (by decide)
      (by decide)).1 rfl (by decide),
    (diff_empty_boundaries [cmdPing, cmdEcho true] [] (by decide)
      (by decide)).2 rfl (by decide)⟩

/-- C6: the differ is deterministic — its output is a function of the two
key-maps built from its inputs alone, so two runs on equal inputs produce
identical bucket contents, element order included.  (Purity holds by
construction: `appCommandsDiff` is a total function with no effects,
mirroring the source, which only reads attributes and builds fresh lists.) -/
theorem diff_deterministic (old1 new1 old2 new2 : List AppCommandDict)
    (ho : buildMap old1 = buildMap old2) (hn : buildMap new1 = buildMap new2) :
    appCommandsDiff old1 new1 = appCommandsDiff old2 new2 := by
  rw [appCommandsDiff, appCommandsDiff, ho, hn]

/-- C6 witness: two runs on the same pair of inputs agree. -/
theorem diff_deterministic_witness :
    buildMap [cmdPing] = buildMap [cmdPing] ∧
    appCommandsDiff [cmdPing] [cmdEcho true] =
      appCommandsDiff [cmdPing] [cmdEcho true] :=
  ⟨rfl, diff_deterministic [cmdPing] [cmdEcho true] [cmdPing] [cmdEcho true]
    rfl rfl⟩

/-- Diffing a list against itself reports no changes: every key of the map
looks itself up to an equal snapshot. -/
theorem appCommandsDiff_self (l : List AppCommandDict) :
    (appCommandsDiff l l).added = [] ∧
    (appCommandsDiff l l).removed = [] ∧
    (appCommandsDiff l l).updated = [] := by
  refine ⟨?_, ?_, ?_⟩
  · rw [appCommandsDiff_added]
    have hfil : (buildMap l).filter (isAddedKey (buildMap l)) = [] := by
      rw [List.filter_eq_nil_iff]
      intro kc hkc
      simp [isAddedKey, lookupKV_buildMap_self hkc]
    rw [hfil]
    rfl
  · rw [appCommandsDiff_removed]
    have hfil : (buildMap l).filter (isRemovedKey (buildMap l)) = [] := by
      rw [List.filter_eq_nil_iff]
      intro kc hkc
      simp [isRemovedKey, lookupKV_buildMap_self hkc]
    rw [hfil]
    rfl
  · rw [appCommandsDiff_updated]
    have hfil : (buildMap l).filter (isUpdatedKey (buildMap l)) = [] := by
      rw [List.filter_eq_nil_iff]
      intro kc hkc
      simp [isUpdatedKey, lookupKV_buildMap_self hkc]
    rw [hfil]
    rfl

/-- C7: `smart_sync` refreshes the stored `_current_commands_list` to the
freshly recomputed snapshot list, performs the remote call exactly when the
diff reports changes, and a subsequent invocation against the refreshed
state (with an unchanged local tree) reports nothing to sync. -/
theorem smartSync_refreshes_state (current fresh : List AppCommandDict) :
    (smartSync current fresh).1 = fresh ∧
    ((smartSync current fresh).2.called = true ↔
      ((appCommandsDiff current fresh).added ≠ [] ∨
        (appCommandsDiff current fresh).removed ≠ [] ∨
        (appCommandsDiff current fresh).updated ≠ [])) ∧
    (smartSync (smartSync current fresh).1 fresh).2.called = false := by
  refine ⟨rfl, syncCommands_called_iff _, ?_⟩
  show (syncCommands (appCommandsDiff fresh fresh)).called = false
  obtain ⟨ha, hr, hu⟩ := appCommandsDiff_self fresh
  rw [syncCommands]
  simp [ha, hr, hu]

/-- The reload loop of `cog_watcher`: the `reloaded` flag ends up true iff
some reload succeeded, and exactly the failed reloads are logged. -/
theorem cogWatcher_foldl (reloads : List (String × Bool)) (b : Bool)
    (logs : List String) :
    reloads.foldl cogWatcherStep (b, logs) =
      (b || reloads.any (fun nf => !nf.2),
        logs ++ (reloads.filter (fun nf => nf.2)).map
          (fun nf => "Failed to reload extension " ++ nf.1)) := by
  induction reloads generalizing b logs with
  | nil => simp
  | cons nf rest ih =>
      by_cases h : nf.2 <;>
        simp [cogWatcherStep, h, ih, List.filter_cons, List.any_cons]

/-- C8 counterexample: one extension reloads successfully, then the remote
sync call raises; the exception is not caught and the watcher iteration
aborts instead of proceeding to the next interval. -/
theorem cogWatcher_sync_failure_aborts :
    (cogWatcherIteration [("cogs.music", false)]
        (Except.error "HTTPException")).1 =
      Except.error "HTTPException" ∧
    (cogWatcherIteration [("cogs.music", false)]
        (Except.error "HTTPException")).1 ≠ Except.ok () :=
  ⟨rfl, fun h => Except.noConfusion h⟩

/-- C8 (amended): each failed extension reload is caught and logged with
its name and the loop proceeds; but the remote synchronization call is not
guarded — when at least one reload succeeded and the sync raises, the
exception escapes and the watcher aborts rather than reaching the next
interval. -/
theorem cogWatcher_reload_caught_sync_uncaught
    (reloads : List (String × Bool)) (sync : Except String Unit) :
    (cogWatcherIteration reloads sync).2 =
      (reloads.filter (fun nf => nf.2)).map
        (fun nf => "Failed to reload extension " ++ nf.1) ∧
    (cogWatcherIteration reloads (Except.ok ())).1 = Except.ok () ∧
    ((cogWatcherIteration reloads sync).1 = Except.ok () ↔
      (sync = Except.ok () ∨ reloads.any (fun nf => !nf.2) = false)) := by
  cases hany : reloads.any (fun nf => !nf.2) with
  | false =>
      rcases sync with e | u
      · simp [cogWatcherIteration, cogWatcher_foldl, hany]
      · cases u
        simp [cogWatcherIteration, cogWatcher_foldl, hany]
  | true =>
      rcases sync with e | u
      · simp [cogWatcherIteration, cogWatcher_foldl, hany]
      · cases u
        simp [cogWatcherIteration, cogWatcher_foldl, hany]

/-- C9: `from_parameter` derives `min_length` / `max_length` from the
parameter's `min_value` / `max_value` (via Python truthiness), never
reading the parameter's own declared length bounds; `from_option` copies
the option's actual length bounds; on the same `volume` option the two
paths produce structurally unequal snapshots. -/
theorem from_parameter_length_bounds (nl dl : LocalizationMap)
    (p : Parameter) (ml xl : Option Int) :
    OptionSnapshot.minLengthOf (AppCommandOption.from_parameter nl dl p) =
      (if truthyOptInt p.min_value then p.min_value else none) ∧
    OptionSnapshot.maxLengthOf (AppCommandOption.from_parameter nl dl p) =
      (if truthyOptInt p.max_value then p.max_value else none) ∧
    AppCommandOption.from_parameter nl dl
        { p with min_length := ml, max_length := xl } =
      AppCommandOption.from_parameter nl dl p ∧
    (∀ a : Argument,
      OptionSnapshot.minLengthOf (AppCommandOption.from_option a) =
          a.min_length ∧
      OptionSnapshot.maxLengthOf (AppCommandOption.from_option a) =
          a.max_length) ∧
    AppCommandOption.from_parameter [] [] paramVolume ≠
      AppCommandOption.from_option argVolume :=
  ⟨rfl, rfl, rfl, fun _ => ⟨rfl, rfl⟩, by decide⟩

/-- Every key of `new_cmds` is counted by exactly one of the three
classifying predicates. -/
theorem countP_partition_diff (o : CmdMap)
    (l : List (CmdKey × AppCommandDict)) :
    l.countP (isSameKey o) + l.countP (isAddedKey o) +
      l.countP (isUpdatedKey o) = l.length := by
  induction l with
  | nil => rfl
  | cons kc rest ih =>
      simp only [List.countP_cons, List.length_cons]
      cases h : lookupKV o kc.1 with
      | none =>
          simp only [isSameKey, isAddedKey, isUpdatedKey, h]
          simp
          omega
      | some c =>
          by_cases hc : c = kc.2
          · simp only [isSameKey, isAddedKey, isUpdatedKey, h]
            simp [hc]
            omega
          · simp only [isSameKey, isAddedKey, isUpdatedKey, h]
            simp [hc]
            omega

/-- The dict built from `cmds` has one entry per distinct key. -/
theorem buildMap_length_eq_card (cmds : List AppCommandDict) :
    (buildMap cmds).length = (cmds.map keyOf).toFinset.card := by
  have h1 : ((buildMap cmds).map Prod.fst).toFinset =
      (cmds.map keyOf).toFinset := by
    ext k
    simp only [List.mem_toFinset]
    exact mem_keys_buildMap cmds k
  calc (buildMap cmds).length
      = ((buildMap cmds).map Prod.fst).length := (List.length_map _ _).symm
    _ = ((buildMap cmds).map Prod.fst).toFinset.card :=
        (List.toFinset_card_of_nodup (nodup_keys_buildMap cmds)).symm
    _ = (cmds.map keyOf).toFinset.card := by rw [h1]

/-- Any bucket drawn from the dict entries has pairwise distinct keys. -/
theorem bucket_keys_nodup (p : (CmdKey × AppCommandDict) → Bool)
    (cmds : List AppCommandDict) :
    ((((buildMap cmds).filter p).map Prod.snd).map keyOf).Nodup := by
  have h1 : ((((buildMap cmds).filter p).map Prod.snd).map keyOf) =
      ((buildMap cmds).filter p).map Prod.fst := by
    rw [List.map_map]
    refine List.map_congr_left ?_
    intro kc hkc
    exact ((mem_buildMap (List.mem_filter.mp hkc).1).1).symm
  rw [h1]
  exact (List.Sublist.map Prod.fst (List.filter_sublist _)).nodup
    (nodup_keys_buildMap cmds)

/-- C10: with duplicate `(name, type)` keys in an input, the differ keeps
the last occurrence of each key (dict overwrite) and never fails; each
bucket holds at most one snapshot per key; `|same| + |added| + |updated|`
equals the number of distinct keys in `new`, which is at most — and can be
strictly less than — the length of `new`. -/
theorem diff_duplicate_keys (old new : List AppCommandDict) :
    (∀ k, lookupKV (buildMap new) k = lastWithKey new k) ∧
    ((appCommandsDiff old new).same.length +
      (appCommandsDiff old new).added.length +
      (appCommandsDiff old new).updated.length =
        (new.map keyOf).toFinset.card) ∧
    (((appCommandsDiff old new).added.map keyOf).Nodup ∧
      ((appCommandsDiff old new).updated.map keyOf).Nodup ∧
      ((appCommandsDiff old new).same.map keyOf).Nodup ∧
      ((appCommandsDiff old new).removed.map keyOf).Nodup) ∧
    (new.map keyOf).toFinset.card ≤ new.length ∧
    (appCommandsDiff [] [cmdPing, cmdPingAlt]).added = [cmdPingAlt] ∧
    ([cmdPing, cmdPingAlt].map keyOf).toFinset.card <
      ([cmdPing, cmdPingAlt] : List AppCommandDict).length := by
  refine ⟨lookupKV_buildMap new, ?_, ?_, ?_, by decide, by decide⟩
  · rw [appCommandsDiff_same, appCommandsDiff_added, appCommandsDiff_updated]
    simp only [List.length_map]
    rw [← List.countP_eq_length_filter, ← List.countP_eq_length_filter,
      ← List.countP_eq_length_filter]
    rw [countP_partition_diff (buildMap old) (buildMap new)]
    exact buildMap_length_eq_card new
  · refine ⟨?_, ?_, ?_, ?_⟩
    · rw [appCommandsDiff_added]
      exact bucket_keys_nodup (isAddedKey (buildMap old)) new
    · rw [appCommandsDiff_updated]
      exact bucket_keys_nodup (isUpdatedKey (buildMap old)) new
    · rw [appCommandsDiff_same]
      exact bucket_keys_nodup (isSameKey (buildMap old)) new
    · rw [appCommandsDiff_removed]
      exact bucket_keys_nodup (isRemovedKey (buildMap new)) old
  · calc (new.map keyOf).toFinset.card ≤ (new.map keyOf).length :=
          List.toFinset_card_le _
      _ = new.length := List.length_map _ _

end SmartSync
